import Mathlib

/-!
Verification of the paper-hands model data pipeline (`src/model/crypto_data.py`).

The Python source is shallowly embedded below.  Machine floats are modelled by
exact rationals (`ℚ`), millisecond timestamps by `ℤ`, and the two schedule
while-loops by fuel-indexed recursion (`none` = fuel exhausted).  A Python
`ZeroDivisionError` is modelled explicitly: a division whose divisor is zero
aborts the computation, so the schedule builders return a `ModelResult` that
distinguishes a normal return, a raised `ZeroDivisionError`, and fuel
exhaustion.  CSV/file mechanics are out of scope; each embedded function
returns the data the Python function writes or returns.
-/

namespace PHModel

/-- `MS_IN_DAY = 24 * 60 * 60 * 1000` from the source. -/
def MS_IN_DAY : ℤ := 24 * 60 * 60 * 1000

/-- `DAYS_LIMIT = 364` from the source. -/
def DAYS_LIMIT : ℕ := 364

/-- `COINGECKO_ALLOWED_DAYS = [1, 7, 14, 30, 90, 180, 365, 730]` from the source. -/
def COINGECKO_ALLOWED_DAYS : List ℕ := [1, 7, 14, 30, 90, 180, 365, 730]

/-- Embedding of `_coingecko_days`: scan the allowed list for the first entry
`day` with `limit <= day`; if none matches return the last entry. -/
def coingecko_days (limit : ℕ) : ℕ :=
  match COINGECKO_ALLOWED_DAYS.find? (fun day => decide (limit ≤ day)) with
  | some day => day
  | none => COINGECKO_ALLOWED_DAYS.getLast (by decide)

/-- One OHLCV row `[timestamp, open, high, low, close, volume]`. -/
structure Candle where
  ts : ℤ
  open_ : ℚ
  high : ℚ
  low : ℚ
  close : ℚ
  volume : ℚ
deriving DecidableEq

/-- One raw trade print `{timestamp, price, amount}` (input of
`_trades_to_ohlcv`). -/
structure Trade where
  ts : ℤ
  price : ℚ
  amount : ℚ
deriving DecidableEq

/-- Python's `lst[-n:]` for `n > 0`: the last `n` elements. -/
def takeLast (n : ℕ) (l : List α) : List α := l.drop (l.length - n)

/-! ### Event extractor (`save_surge_snippets`, `save_selloff_snippets`) -/

/-- Surge qualification from `save_surge_snippets`:
`open_ > 0 and (high / open_) >= multiplier`. -/
def surgeQualifies (multiplier : ℚ) (c : Candle) : Bool :=
  decide (0 < c.open_) && decide (multiplier ≤ c.high / c.open_)

/-- Selloff qualification from `save_selloff_snippets`:
`open_ > 0 and (low / open_) <= multiplier`. -/
def selloffQualifies (multiplier : ℚ) (c : Candle) : Bool :=
  decide (0 < c.open_) && decide (c.low / c.open_ ≤ multiplier)

/-- The `surrounding` volume list of the source: volumes at offsets
`(-2, -1, 1, 2)` from index `i` that fall inside the series. -/
def surroundingVolumes (ohlcv : List Candle) (i : ℕ) : List ℚ :=
  ([-2, -1, 1, 2] : List ℤ).filterMap (fun off =>
    if 0 ≤ (i : ℤ) + off then (ohlcv.get? ((i : ℤ) + off).toNat).map Candle.volume
    else none)

/-- `ph_volume = volume - avg_surrounding` where `avg_surrounding` is the mean
of `surrounding` (or `0.0` when `surrounding` is empty), as in the source. -/
def phVolume (ohlcv : List Candle) (i : ℕ) (c : Candle) : ℚ :=
  let s := surroundingVolumes ohlcv i
  c.volume - (if s = [] then 0 else s.sum / (s.length : ℚ))

/-- `ph_percentage = ph_volume / supply if supply else 0.0` from the source. -/
def phPercentage (supply : ℚ) (v : ℚ) : ℚ :=
  if supply = 0 then 0 else v / supply

/-- The `averages` list accumulated by `save_surge_snippets`: one
`ph_percentage` per qualifying day, in series order. -/
def surgeAverages (ohlcv : List Candle) (supply : ℚ) (multiplier : ℚ) : List ℚ :=
  ohlcv.enum.filterMap (fun p =>
    if surgeQualifies multiplier p.2 then
      some (phPercentage supply (phVolume ohlcv p.1 p.2))
    else none)

/-- The `averages` list accumulated by `save_selloff_snippets`. -/
def selloffAverages (ohlcv : List Candle) (supply : ℚ) (multiplier : ℚ) : List ℚ :=
  ohlcv.enum.filterMap (fun p =>
    if selloffQualifies multiplier p.2 then
      some (phPercentage supply (phVolume ohlcv p.1 p.2))
    else none)

/-- Return value of `save_surge_snippets`:
`sum(averages) / len(averages) if averages else 0.0`.
(The CSV side effects are not modelled.) -/
def save_surge_snippets (ohlcv : List Candle) (supply : ℚ) (multiplier : ℚ) : ℚ :=
  let averages := surgeAverages ohlcv supply multiplier
  if averages = [] then 0 else averages.sum / (averages.length : ℚ)

/-- Return value of `save_selloff_snippets`. -/
def save_selloff_snippets (ohlcv : List Candle) (supply : ℚ) (multiplier : ℚ) : ℚ :=
  let averages := selloffAverages ohlcv supply multiplier
  if averages = [] then 0 else averages.sum / (averages.length : ℚ)

/-- Claim-side reading of the neighbour volumes: the volumes at indices
`i-2, i-1, i+1, i+2` that lie inside the series. -/
def neighborIdxVols (ohlcv : List Candle) (i : ℕ) : List ℚ :=
  ([(i : ℤ) - 2, (i : ℤ) - 1, (i : ℤ) + 1, (i : ℤ) + 2]).filterMap (fun j =>
    if 0 ≤ j ∧ j < (ohlcv.length : ℤ) then (ohlcv.get? j.toNat).map Candle.volume else none)

/-- The five-day candle series of the repository's surge test
(`tests/test_surges.py`, timestamps compressed). -/
def eventWitnessSeries : List Candle :=
  [⟨0, 1, 1, 9/10, 1, 10⟩, ⟨1, 1, 1, 9/10, 1, 20⟩, ⟨2, 1, 5/2, 9/10, 2, 100⟩,
   ⟨3, 1, 1, 9/10, 1, 30⟩, ⟨4, 1, 1, 9/10, 1, 40⟩]

/-! ### Sell-pressure modeler (`save_buyback_model`, `save_liquidation_model`) -/

/-- One schedule row as written by the modelers.  The CSV `x` column is
`round(price_mult, 2)`, a display-only rounding of `price_mult`, and the final
`buy_in_tokens`/`sell_out_tokens` column repeats `tokens_sold_cumulative`;
neither carries extra information so the row stores `price_mult` itself. -/
structure SRow where
  step : ℕ
  price_mult : ℚ
  price_usd : ℚ
  tokens_sold : ℚ
  tokens_sold_cumulative : ℚ
  usd_value : ℚ
  usd_value_cumulative : ℚ
  weighted_avg_price : ℚ
  freefloat : ℚ
deriving DecidableEq

/-- Outcome of a modeler run: a normal return with its data rows, a Python
`ZeroDivisionError`, or exhaustion of the loop fuel. -/
inductive ModelResult where
  | ok : List SRow → ModelResult
  | zeroDivision : ModelResult
  | outOfFuel : ModelResult
deriving DecidableEq

/-- `steps = math.ceil((final_price / price - 1) / step_inc) + 1` from
`save_buyback_model` (with `step_inc = step_pct / 100`). -/
def buybackSteps (price final_price step_pct : ℚ) : ℤ :=
  ⌈(final_price / price - 1) / (step_pct / 100)⌉ + 1

/-- `steps = max(1, math.ceil((1 - final_price / price) / step_inc) + 1)` from
`save_liquidation_model`. -/
def liquidationSteps (price final_price step_pct : ℚ) : ℤ :=
  max 1 (⌈(1 - final_price / price) / (step_pct / 100)⌉ + 1)

/-- The `while True` loop of `save_buyback_model`.  Arguments after the fuel
mirror the Python loop state `step, price_mult, tokens_step, sold_cum,
usd_cum`; the loop body appends one row and breaks once
`price_level >= final_price`. -/
def buybackLoop (price final_price step_inc q_factor supply : ℚ) :
    ℕ → ℕ → ℚ → ℚ → ℚ → ℚ → Option (List SRow)
  | 0, _, _, _, _, _ => none
  | fuel + 1, step, price_mult, tokens_step, sold_cum, usd_cum =>
    let price_level := price * price_mult
    let sell_now := tokens_step
    let sold_cum2 := sold_cum + sell_now
    let usd_now := sell_now * price_level
    let usd_cum2 := usd_cum + usd_now
    let weighted_avg := if sold_cum2 = 0 then 0 else usd_cum2 / sold_cum2
    let row : SRow :=
      ⟨step, price_mult, price_level, sell_now, sold_cum2, usd_now, usd_cum2,
        weighted_avg, supply - sold_cum2⟩
    if final_price ≤ price_level then some [row]
    else
      (buybackLoop price final_price step_inc q_factor supply fuel (step + 1)
          (price_mult + step_inc) (tokens_step * q_factor) sold_cum2 usd_cum2).map
        (row :: ·)

/-- The `while True` loop of `save_liquidation_model`: identical to
`buybackLoop` except the break condition is `price_level <= final_price`,
`price_mult` decreases by `step_inc`, and `freefloat = supply + sold_cum`. -/
def liquidationLoop (price final_price step_inc q_factor supply : ℚ) :
    ℕ → ℕ → ℚ → ℚ → ℚ → ℚ → Option (List SRow)
  | 0, _, _, _, _, _ => none
  | fuel + 1, step, price_mult, tokens_step, sold_cum, usd_cum =>
    let price_level := price * price_mult
    let sell_now := tokens_step
    let sold_cum2 := sold_cum + sell_now
    let usd_now := sell_now * price_level
    let usd_cum2 := usd_cum + usd_now
    let weighted_avg := if sold_cum2 = 0 then 0 else usd_cum2 / sold_cum2
    let row : SRow :=
      ⟨step, price_mult, price_level, sell_now, sold_cum2, usd_now, usd_cum2,
        weighted_avg, supply + sold_cum2⟩
    if price_level ≤ final_price then some [row]
    else
      (liquidationLoop price final_price step_inc q_factor supply fuel (step + 1)
          (price_mult - step_inc) (tokens_step * q_factor) sold_cum2 usd_cum2).map
        (row :: ·)

/-- Wrap the schedule loop's outcome: a completed loop returns its rows, an
exhausted fuel budget is reported as `outOfFuel`. -/
def loopResult : Option (List SRow) → ModelResult
  | some rows => ModelResult.ok rows
  | none => ModelResult.outOfFuel

/-- Embedding of `save_buyback_model` (data rows only; the CSV header and file
handling are not modelled).  `tokens_to_sell <= 0` returns an empty schedule.
The initial `tokens_step` divisions are guarded: dividing by `steps = 0`, or —
in the `q_factor != 1` branch — by `1 - q_factor ** steps = 0` (including the
`0.0 ** negative` case inside the power), raises `ZeroDivisionError` in Python
and yields `ModelResult.zeroDivision` here. -/
def save_buyback_model (fuel : ℕ)
    (price supply ph_percentage final_price q_pct step_pct : ℚ) : ModelResult :=
  let tokens_to_sell := supply * ph_percentage
  if tokens_to_sell ≤ 0 then ModelResult.ok []
  else
    let step_inc := step_pct / 100
    let q_factor := 1 + q_pct / 100
    let steps : ℤ := ⌈(final_price / price - 1) / step_inc⌉ + 1
    if q_factor = 1 then
      if steps = 0 then ModelResult.zeroDivision
      else
        loopResult (buybackLoop price final_price step_inc q_factor supply fuel
          1 1 (tokens_to_sell / (steps : ℚ)) 0 0)
    else
      if q_factor = 0 ∧ steps < 0 then ModelResult.zeroDivision
      else if 1 - q_factor ^ steps = 0 then ModelResult.zeroDivision
      else
        loopResult (buybackLoop price final_price step_inc q_factor supply fuel
          1 1 (tokens_to_sell * (1 - q_factor) / (1 - q_factor ^ steps)) 0 0)

/-- Embedding of `save_liquidation_model` (data rows only).  Unlike the
buyback model its step count is clamped: `steps = max(1, ...)`. -/
def save_liquidation_model (fuel : ℕ)
    (price supply ph_percentage final_price q_pct step_pct : ℚ) : ModelResult :=
  let tokens_to_sell := supply * ph_percentage
  if tokens_to_sell ≤ 0 then ModelResult.ok []
  else
    let step_inc := step_pct / 100
    let q_factor := 1 + q_pct / 100
    let steps : ℤ := max 1 (⌈(1 - final_price / price) / step_inc⌉ + 1)
    if q_factor = 1 then
      if steps = 0 then ModelResult.zeroDivision
      else
        loopResult (liquidationLoop price final_price step_inc q_factor supply fuel
          1 1 (tokens_to_sell / (steps : ℚ)) 0 0)
    else
      if q_factor = 0 ∧ steps < 0 then ModelResult.zeroDivision
      else if 1 - q_factor ^ steps = 0 then ModelResult.zeroDivision
      else
        loopResult (liquidationLoop price final_price step_inc q_factor supply fuel
          1 1 (tokens_to_sell * (1 - q_factor) / (1 - q_factor ^ steps)) 0 0)

/-! ### OHLCV acquisition engine (`fetch_ohlcv` and its helpers)

Two views of the engine are embedded.  The *orchestration* view
(`fetch_ohlcv`) abstracts the per-(venue, symbol) fetch — the whole
`_fetch_from_exchange` tier chain — into an environment function returning the
rows it would yield (`[]` on total failure), and models the two venue loops,
the failure list, and the aggregator fallback exactly.  The *series builder*
view embeds the three constructors of candle series: the pagination loop of
`_fetch_from_exchange`, `_trades_to_ohlcv` / `_build_from_trades`, and the
aggregator's volume-less rows. -/

/-- One row of CoinGecko's `/ohlc` payload: `[ts, open, high, low, close]`
(no volume). -/
structure CGRow where
  ts : ℤ
  open_ : ℚ
  high : ℚ
  low : ℚ
  close : ℚ
deriving DecidableEq

/-- `row + [0.0]`: the aggregator fallback appends a zero volume. -/
def cgToCandle (r : CGRow) : Candle := ⟨r.ts, r.open_, r.high, r.low, r.close, 0⟩

/-- The series `fetch_ohlcv` stores under the `"coingecko"` key:
`data[-DAYS_LIMIT:]` with a zero volume appended to each row. -/
def coingeckoSeries (data : List CGRow) : List Candle :=
  (takeLast DAYS_LIMIT data).map cgToCandle

/-- Abstract environment for the orchestration view of `fetch_ohlcv`.
`exchangesToTry` is the computed `exchanges_to_try`; `marketsByExchange` the
CoinGecko-reported pairs per venue; `fetchSymbol ex sym` the rows the full
`_fetch_from_exchange ex sym` tier chain would return (`[]` when every tier
fails); `genericSymbols ex` the generic pairs (`BASE/USDT`, `BASE/USD`,
`BASE/USDC`) present in that venue's loaded symbol list (empty when
`load_markets` fails); `aggregator` the CoinGecko `/ohlc` payload (`none` for
an HTTP error). -/
structure FetchEnv where
  exchangesToTry : List String
  marketsByExchange : String → List String
  fetchSymbol : String → String → List Candle
  genericSymbols : String → List String
  aggregator : Option (List CGRow)

/-- Inner symbol loop shared by both venue loops: try each symbol in order and
keep the first non-empty result. -/
def firstSuccess (fetch : String → List Candle) : List String → Option (List Candle)
  | [] => none
  | s :: rest =>
    let data := fetch s
    if data = [] then firstSuccess fetch rest else some data

/-- First venue loop of `fetch_ohlcv`: for each exchange, the first market
pair that yields data fills `results[ex]`. -/
def fetchPhase1 (env : FetchEnv) :
    List String → List (String × List Candle) → List (String × List Candle)
  | [], results => results
  | ex :: rest, results =>
    match firstSuccess (env.fetchSymbol ex) (env.marketsByExchange ex) with
    | some data => fetchPhase1 env rest (results ++ [(ex, data)])
    | none => fetchPhase1 env rest results

/-- Second venue loop of `fetch_ohlcv`: exchanges still without data probe the
generic pairs present on the venue. -/
def fetchPhase2 (env : FetchEnv) :
    List String → List (String × List Candle) → List (String × List Candle)
  | [], results => results
  | ex :: rest, results =>
    if (results.map Prod.fst).contains ex then fetchPhase2 env rest results
    else
      match firstSuccess (env.fetchSymbol ex) (env.genericSymbols ex) with
      | some data => fetchPhase2 env rest (results ++ [(ex, data)])
      | none => fetchPhase2 env rest results

/-- `results` after both venue loops. -/
def fetchResults (env : FetchEnv) : List (String × List Candle) :=
  fetchPhase2 env env.exchangesToTry (fetchPhase1 env env.exchangesToTry [])

/-- `failures = [ex for ex in exchanges_to_try if ex not in results]`. -/
def fetchFailures (env : FetchEnv) (results : List (String × List Candle)) : List String :=
  env.exchangesToTry.filter (fun ex => !(results.map Prod.fst).contains ex)

/-- Orchestration embedding of `fetch_ohlcv`: both venue loops, the failure
list, and the aggregator fallback (which raises `ValueError` — here
`Except.error` — on an HTTP failure or an empty payload). -/
def fetch_ohlcv (env : FetchEnv) :
    Except String (List (String × List Candle) × List String) :=
  let results := fetchResults env
  let failures := fetchFailures env results
  if results = [] then
    match env.aggregator with
    | none => Except.error "CoinGecko OHLC request failed"
    | some data =>
      if data = [] then Except.error "No OHLCV data available"
      else Except.ok ([("coingecko", coingeckoSeries data)], failures)
  else Except.ok (results, failures)

/-- A venue yields data when either its reported market pairs or its generic
pairs produce a non-empty series. -/
def venueSucceeds (env : FetchEnv) (ex : String) : Bool :=
  (firstSuccess (env.fetchSymbol ex) (env.marketsByExchange ex)).isSome ||
  (firstSuccess (env.fetchSymbol ex) (env.genericSymbols ex)).isSome

/-! ### Series builders -/

/-- The pagination `while True` loop of `_fetch_from_exchange`, indexed by
fuel.  `fetchBatch since` abstracts
`exchange.fetch_ohlcv(symbol, "1d", since, DAYS_LIMIT)`: an empty batch ends
the loop; once the accumulated data reaches `DAYS_LIMIT` rows it is truncated
to the window and the loop breaks; otherwise the cursor advances to one day
past the last returned timestamp. -/
def fetchPaginated (fetchBatch : ℤ → List Candle) :
    ℕ → ℤ → List Candle → Option (List Candle)
  | 0, _, _ => none
  | fuel + 1, since, all_data =>
    let batch := fetchBatch since
    if h : batch = [] then some all_data
    else
      let all_data2 := all_data ++ batch
      if DAYS_LIMIT ≤ all_data2.length then some (takeLast DAYS_LIMIT all_data2)
      else fetchPaginated fetchBatch fuel ((batch.getLast h).ts + MS_IN_DAY) all_data2

/-- The native-OHLC series `_fetch_from_exchange` returns when its pagination
loop accumulated data: `all_data[-DAYS_LIMIT:]`. -/
def fetchFromExchangePaginated (fetchBatch : ℤ → List Candle)
    (fuel : ℕ) (since_start : ℤ) : Option (List Candle) :=
  (fetchPaginated fetchBatch fuel since_start []).map (takeLast DAYS_LIMIT)

/-- `ts = int(math.floor(t["timestamp"] / duration) * duration)`: the day
bucket of a trade (floor division). -/
def bucketKey (duration : ℤ) (t : Trade) : ℤ := t.ts.fdiv duration * duration

/-- The in-place bucket update of `_trades_to_ohlcv` for one trade: a fresh
bucket starts as `[ts, price, price, price, price, 0.0]`, then
`high := max high price`, `low := min low price`, `close := price`,
`volume += amount`. -/
def applyTrade (t : Trade) (c : Candle) : Candle :=
  { c with high := max c.high t.price, low := min c.low t.price,
           close := t.price, volume := c.volume + t.amount }

/-- Fold one trade into the bucket association list (Python dict). -/
def addTradeToBuckets (duration : ℤ) (buckets : List (ℤ × Candle)) (t : Trade) :
    List (ℤ × Candle) :=
  let k := bucketKey duration t
  match buckets.lookup k with
  | some _ => buckets.map (fun kc => if kc.1 = k then (kc.1, applyTrade t kc.2) else kc)
  | none => buckets ++ [(k, applyTrade t ⟨k, t.price, t.price, t.price, t.price, 0⟩)]

/-- Embedding of `_trades_to_ohlcv`: bucket the trades by floored timestamp,
then emit the buckets in ascending key order
(`[buckets[k] for k in sorted(buckets)]`). -/
def trades_to_ohlcv (duration : ℤ) (trades : List Trade) : List Candle :=
  let buckets := trades.foldl (addTradeToBuckets duration) []
  (List.insertionSort (· ≤ ·) (buckets.map Prod.fst)).filterMap
    (fun k => buckets.lookup k)

/-- Environment of `_build_from_trades`: `fetchTrades since` abstracts
`exchange.fetch_trades(symbol, since, 1000)`, and `now_ms` the loop bound. -/
structure TradesEnv where
  fetchTrades : ℤ → List Trade
  now_ms : ℤ

/-- A trade environment whose two consecutive trade batches (timestamps 100
and 200, within the same day bucket) exhibit the engine's missing cross-batch
deduplication. -/
def tradeDupEnv : TradesEnv :=
  { fetchTrades := fun since =>
      if since = 0 then [⟨100, 1, 1⟩] else if since = 101 then [⟨200, 2, 1⟩] else []
    now_ms := 400 }

/-- Embedding of `_build_from_trades`, fuel-indexed.  While
`start < now_ms and len(all_data) < DAYS_LIMIT`: an empty trade batch advances
`start` by one bucket duration; otherwise the batch is bucketed into candles,
appended to `all_data`, and `start` jumps to one millisecond past the last
trade.  Returns `all_data[-DAYS_LIMIT:]`. -/
def build_from_trades (env : TradesEnv) (duration : ℤ) :
    ℕ → ℤ → List Candle → Option (List Candle)
  | 0, _, _ => none
  | fuel + 1, start, all_data =>
    if start < env.now_ms ∧ all_data.length < DAYS_LIMIT then
      let trades := env.fetchTrades start
      if h : trades = [] then build_from_trades env duration fuel (start + duration) all_data
      else
        build_from_trades env duration fuel ((trades.getLast h).ts + 1)
          (all_data ++ trades_to_ohlcv duration trades)
    else some (takeLast DAYS_LIMIT all_data)

/-! ## Shared helper lemmas -/

theorem filterMap_ite_eq_filter_map (l : List α) (p : α → Bool) (f : α → β) :
    l.filterMap (fun x => if p x then some (f x) else none) = (l.filter p).map f := by
  induction l with
  | nil => rfl
  | cons a t ih =>
    by_cases h : p a <;>
      simp [List.filterMap_cons, List.filter_cons, h, ih]

theorem surroundingVolumes_elt (ohlcv : List Candle) (j : ℤ) :
    (if 0 ≤ j then (ohlcv.get? j.toNat).map Candle.volume else none) =
      (if 0 ≤ j ∧ j < (ohlcv.length : ℤ) then (ohlcv.get? j.toNat).map Candle.volume
       else none) := by
  by_cases h0 : 0 ≤ j
  · by_cases h1 : j < (ohlcv.length : ℤ)
    · simp [h0, h1]
    · rw [if_pos h0, if_neg (by exact fun h => h1 h.2)]
      rw [List.get?_eq_none.mpr (by omega)]
      rfl
  · simp [h0]

theorem surroundingVolumes_eq_neighborIdxVols (ohlcv : List Candle) (i : ℕ) :
    surroundingVolumes ohlcv i = neighborIdxVols ohlcv i := by
  have e1 : (i : ℤ) + (-2) = (i : ℤ) - 2 := by ring
  have e2 : (i : ℤ) + (-1) = (i : ℤ) - 1 := by ring
  simp only [surroundingVolumes, neighborIdxVols, List.filterMap_cons,
    List.filterMap_nil, e1, e2]
  rw [surroundingVolumes_elt ohlcv ((i : ℤ) - 2), surroundingVolumes_elt ohlcv ((i : ℤ) - 1),
    surroundingVolumes_elt ohlcv ((i : ℤ) + 1), surroundingVolumes_elt ohlcv ((i : ℤ) + 2)]

theorem map_sum_of_const_tokens (l : List SRow) (ts : ℚ)
    (h : ∀ r ∈ l, r.tokens_sold = ts) :
    (l.map SRow.tokens_sold).sum = (l.length : ℚ) * ts := by
  induction l with
  | nil => simp
  | cons a t ih =>
    simp only [List.map_cons, List.sum_cons, List.length_cons]
    rw [h a (by simp), ih (fun r hr => h r (by simp [hr]))]
    push_cast
    ring

theorem buybackLoop_run (price fp si qf supply : ℚ) :
    ∀ (n : ℕ) (pm : ℚ), (∀ m : ℕ, m < n → price * (pm + m * si) < fp) →
      fp ≤ price * (pm + n * si) →
      ∀ fuel : ℕ, n + 1 ≤ fuel → ∀ (step : ℕ) (ts sc uc : ℚ),
        ∃ rows, buybackLoop price fp si qf supply fuel step pm ts sc uc = some rows ∧
          rows.length = n + 1 ∧ (qf = 1 → ∀ r ∈ rows, r.tokens_sold = ts) := by
  intro n
  induction n with
  | zero =>
    intro pm _ hcross fuel hfuel step ts sc uc
    obtain ⟨f, rfl⟩ : ∃ f, fuel = f + 1 := ⟨fuel - 1, by omega⟩
    have hc : fp ≤ price * pm := by simpa using hcross
    simp only [buybackLoop, if_pos hc]
    refine ⟨_, rfl, rfl, fun _ r hr => ?_⟩
    rw [List.mem_singleton.mp hr]
  | succ n ih =>
    intro pm hlt hcross fuel hfuel step ts sc uc
    obtain ⟨f, rfl⟩ : ∃ f, fuel = f + 1 := ⟨fuel - 1, by omega⟩
    have h0 : price * pm < fp := by simpa using hlt 0 (Nat.succ_pos n)
    have hc : ¬ (fp ≤ price * pm) := not_le.mpr h0
    simp only [buybackLoop, if_neg hc]
    obtain ⟨rows', h1, h2, h3⟩ := ih (pm + si)
      (fun m hm => by
        have hm1 := hlt (m + 1) (by omega)
        have e : pm + ((m : ℚ) + 1) * si = pm + si + (m : ℚ) * si := by ring
        rw [show ((m + 1 : ℕ) : ℚ) = (m : ℚ) + 1 from by push_cast; ring, e] at hm1
        exact hm1)
      (by
        have e : pm + ((n : ℚ) + 1) * si = pm + si + (n : ℚ) * si := by ring
        rw [show ((n + 1 : ℕ) : ℚ) = (n : ℚ) + 1 from by push_cast; ring, e] at hcross
        exact hcross)
      f (by omega) (step + 1) (ts * qf) (sc + ts) (uc + ts * (price * pm))
    rw [h1, Option.map_some']
    refine ⟨_, rfl, by simp [h2], fun hqf r hr => ?_⟩
    rcases List.mem_cons.mp hr with h | h
    · rw [h]
    · have := h3 hqf r h
      rw [hqf, mul_one] at this
      exact this

theorem liquidationLoop_run (price fp si qf supply : ℚ) :
    ∀ (n : ℕ) (pm : ℚ), (∀ m : ℕ, m < n → fp < price * (pm - m * si)) →
      price * (pm - n * si) ≤ fp →
      ∀ fuel : ℕ, n + 1 ≤ fuel → ∀ (step : ℕ) (ts sc uc : ℚ),
        ∃ rows, liquidationLoop price fp si qf supply fuel step pm ts sc uc = some rows ∧
          rows.length = n + 1 ∧ (qf = 1 → ∀ r ∈ rows, r.tokens_sold = ts) := by
  intro n
  induction n with
  | zero =>
    intro pm _ hcross fuel hfuel step ts sc uc
    obtain ⟨f, rfl⟩ : ∃ f, fuel = f + 1 := ⟨fuel - 1, by omega⟩
    have hc : price * pm ≤ fp := by simpa using hcross
    simp only [liquidationLoop, if_pos hc]
    refine ⟨_, rfl, rfl, fun _ r hr => ?_⟩
    rw [List.mem_singleton.mp hr]
  | succ n ih =>
    intro pm hlt hcross fuel hfuel step ts sc uc
    obtain ⟨f, rfl⟩ : ∃ f, fuel = f + 1 := ⟨fuel - 1, by omega⟩
    have h0 : fp < price * pm := by simpa using hlt 0 (Nat.succ_pos n)
    have hc : ¬ (price * pm ≤ fp) := not_le.mpr h0
    simp only [liquidationLoop, if_neg hc]
    obtain ⟨rows', h1, h2, h3⟩ := ih (pm - si)
      (fun m hm => by
        have hm1 := hlt (m + 1) (by omega)
        have e : pm - ((m : ℚ) + 1) * si = pm - si - (m : ℚ) * si := by ring
        rw [show ((m + 1 : ℕ) : ℚ) = (m : ℚ) + 1 from by push_cast; ring, e] at hm1
        exact hm1)
      (by
        have e : pm - ((n : ℚ) + 1) * si = pm - si - (n : ℚ) * si := by ring
        rw [show ((n + 1 : ℕ) : ℚ) = (n : ℚ) + 1 from by push_cast; ring, e] at hcross
        exact hcross)
      f (by omega) (step + 1) (ts * qf) (sc + ts) (uc + ts * (price * pm))
    rw [h1, Option.map_some']
    refine ⟨_, rfl, by simp [h2], fun hqf r hr => ?_⟩
    rcases List.mem_cons.mp hr with h | h
    · rw [h]
    · have := h3 hqf r h
      rw [hqf, mul_one] at this
      exact this

theorem buybackLoop_complete (price fp si qf supply : ℚ) :
    ∀ (n : ℕ) (pm : ℚ), fp ≤ price * (pm + n * si) →
      ∀ fuel : ℕ, n + 1 ≤ fuel → ∀ (step : ℕ) (ts sc uc : ℚ),
        (buybackLoop price fp si qf supply fuel step pm ts sc uc).isSome := by
  intro n
  induction n with
  | zero =>
    intro pm hcross fuel hfuel step ts sc uc
    obtain ⟨f, rfl⟩ : ∃ f, fuel = f + 1 := ⟨fuel - 1, by omega⟩
    have hc : fp ≤ price * pm := by simpa using hcross
    simp [buybackLoop, if_pos hc]
  | succ n ih =>
    intro pm hcross fuel hfuel step ts sc uc
    obtain ⟨f, rfl⟩ : ∃ f, fuel = f + 1 := ⟨fuel - 1, by omega⟩
    by_cases hc : fp ≤ price * pm
    · simp [buybackLoop, if_pos hc]
    · simp only [buybackLoop, if_neg hc]
      have := ih (pm + si)
        (by
          have e : pm + ((n : ℚ) + 1) * si = pm + si + (n : ℚ) * si := by ring
          rw [show ((n + 1 : ℕ) : ℚ) = (n : ℚ) + 1 from by push_cast; ring, e] at hcross
          exact hcross)
        f (by omega) (step + 1) (ts * qf) (sc + ts) (uc + ts * (price * pm))
      obtain ⟨rows', hr⟩ := Option.isSome_iff_exists.mp this
      rw [hr, Option.map_some']
      rfl

theorem liquidationLoop_complete (price fp si qf supply : ℚ) :
    ∀ (n : ℕ) (pm : ℚ), price * (pm - n * si) ≤ fp →
      ∀ fuel : ℕ, n + 1 ≤ fuel → ∀ (step : ℕ) (ts sc uc : ℚ),
        (liquidationLoop price fp si qf supply fuel step pm ts sc uc).isSome := by
  intro n
  induction n with
  | zero =>
    intro pm hcross fuel hfuel step ts sc uc
    obtain ⟨f, rfl⟩ : ∃ f, fuel = f + 1 := ⟨fuel - 1, by omega⟩
    have hc : price * pm ≤ fp := by simpa using hcross
    simp [liquidationLoop, if_pos hc]
  | succ n ih =>
    intro pm hcross fuel hfuel step ts sc uc
    obtain ⟨f, rfl⟩ : ∃ f, fuel = f + 1 := ⟨fuel - 1, by omega⟩
    by_cases hc : price * pm ≤ fp
    · simp [liquidationLoop, if_pos hc]
    · simp only [liquidationLoop, if_neg hc]
      have := ih (pm - si)
        (by
          have e : pm - ((n : ℚ) + 1) * si = pm - si - (n : ℚ) * si := by ring
          rw [show ((n + 1 : ℕ) : ℚ) = (n : ℚ) + 1 from by push_cast; ring, e] at hcross
          exact hcross)
        f (by omega) (step + 1) (ts * qf) (sc + ts) (uc + ts * (price * pm))
      obtain ⟨rows', hr⟩ := Option.isSome_iff_exists.mp this
      rw [hr, Option.map_some']
      rfl

theorem buybackLoop_shape (price fp si qf supply : ℚ) :
    ∀ (fuel step : ℕ) (pm ts sc uc : ℚ) (rows : List SRow),
      buybackLoop price fp si qf supply fuel step pm ts sc uc = some rows →
      ∃ last, rows.getLast? = some last ∧ fp ≤ last.price_usd ∧
        ∀ r ∈ rows.dropLast, r.price_usd < fp := by
  intro fuel
  induction fuel with
  | zero => intro step pm ts sc uc rows h; exact absurd h (by simp [buybackLoop])
  | succ f ih =>
    intro step pm ts sc uc rows h
    simp only [buybackLoop] at h
    by_cases hc : fp ≤ price * pm
    · rw [if_pos hc] at h
      obtain rfl := (Option.some.inj h).symm
      exact ⟨_, rfl, hc, by simp⟩
    · rw [if_neg hc] at h
      cases hrec : buybackLoop price fp si qf supply f (step + 1) (pm + si) (ts * qf)
          (sc + ts) (uc + ts * (price * pm)) with
      | none => rw [hrec] at h; simp at h
      | some rows' =>
        rw [hrec, Option.map_some'] at h
        obtain rfl := (Option.some.inj h).symm
        obtain ⟨last, hlast, hcr, hdrop⟩ := ih _ _ _ _ _ _ hrec
        obtain ⟨a, t, rfl⟩ : ∃ a t, rows' = a :: t := by
          cases rows' with
          | nil => simp at hlast
          | cons a t => exact ⟨a, t, rfl⟩
        refine ⟨last, by rw [List.getLast?_cons_cons]; exact hlast, hcr, ?_⟩
        intro r hr
        rcases List.mem_cons.mp (by simpa using hr) with h | h
        · rw [h]
          exact not_le.mp hc
        · exact hdrop r h

theorem liquidationLoop_shape (price fp si qf supply : ℚ) :
    ∀ (fuel step : ℕ) (pm ts sc uc : ℚ) (rows : List SRow),
      liquidationLoop price fp si qf supply fuel step pm ts sc uc = some rows →
      ∃ last, rows.getLast? = some last ∧ last.price_usd ≤ fp ∧
        ∀ r ∈ rows.dropLast, fp < r.price_usd := by
  intro fuel
  induction fuel with
  | zero => intro step pm ts sc uc rows h; exact absurd h (by simp [liquidationLoop])
  | succ f ih =>
    intro step pm ts sc uc rows h
    simp only [liquidationLoop] at h
    by_cases hc : price * pm ≤ fp
    · rw [if_pos hc] at h
      obtain rfl := (Option.some.inj h).symm
      exact ⟨_, rfl, hc, by simp⟩
    · rw [if_neg hc] at h
      cases hrec : liquidationLoop price fp si qf supply f (step + 1) (pm - si) (ts * qf)
          (sc + ts) (uc + ts * (price * pm)) with
      | none => rw [hrec] at h; simp at h
      | some rows' =>
        rw [hrec, Option.map_some'] at h
        obtain rfl := (Option.some.inj h).symm
        obtain ⟨last, hlast, hcr, hdrop⟩ := ih _ _ _ _ _ _ hrec
        obtain ⟨a, t, rfl⟩ : ∃ a t, rows' = a :: t := by
          cases rows' with
          | nil => simp at hlast
          | cons a t => exact ⟨a, t, rfl⟩
        refine ⟨last, by rw [List.getLast?_cons_cons]; exact hlast, hcr, ?_⟩
        intro r hr
        rcases List.mem_cons.mp (by simpa using hr) with h | h
        · rw [h]
          exact not_le.mp hc
        · exact hdrop r h

theorem buyback_first_cross (price fp step_pct : ℚ)
    (hp : 0 < price) (hs : 0 < step_pct) (hfp : price < fp) :
    1 ≤ ⌈(fp / price - 1) / (step_pct / 100)⌉ ∧
    (∀ m : ℕ, m < (⌈(fp / price - 1) / (step_pct / 100)⌉).toNat →
      price * (1 + (m : ℚ) * (step_pct / 100)) < fp) ∧
    fp ≤ price * (1 + ((⌈(fp / price - 1) / (step_pct / 100)⌉).toNat : ℚ) * (step_pct / 100)) := by
  set si : ℚ := step_pct / 100 with hsidef
  have hsi : 0 < si := by positivity
  set x : ℚ := (fp / price - 1) / si with hxdef
  have hfrac : 1 < fp / price := (one_lt_div hp).mpr hfp
  have hx : 0 < x := div_pos (by linarith) hsi
  have hx1 : (0:ℤ) < ⌈x⌉ := Int.ceil_pos.mpr hx
  have hcast : ((⌈x⌉.toNat : ℚ)) = ((⌈x⌉ : ℤ) : ℚ) := by
    exact_mod_cast congrArg (Int.cast : ℤ → ℚ) (Int.toNat_of_nonneg (le_of_lt hx1))
  have hpp : price * (fp / price) = fp := by field_simp
  refine ⟨hx1, fun m hm => ?_, ?_⟩
  · have hmz : (m : ℤ) ≤ ⌈x⌉ - 1 := by omega
    have hmq : (m : ℚ) ≤ ((⌈x⌉ : ℤ) : ℚ) - 1 := by exact_mod_cast hmz
    have hceil : ((⌈x⌉ : ℤ) : ℚ) < x + 1 := Int.ceil_lt_add_one x
    have hmx : (m : ℚ) < x := by linarith
    have h2 : (m : ℚ) * si < fp / price - 1 := (lt_div_iff hsi).mp hmx
    have h4 : 1 + (m : ℚ) * si < fp / price := by linarith
    have h5 := mul_lt_mul_of_pos_left h4 hp
    linarith
  · have hxle : x ≤ ((⌈x⌉ : ℤ) : ℚ) := Int.le_ceil x
    have hxle2 : x ≤ ((⌈x⌉.toNat : ℚ)) := by rw [hcast]; exact hxle
    have h2 : fp / price - 1 ≤ ((⌈x⌉.toNat : ℚ)) * si := (div_le_iff hsi).mp hxle2
    have h6 : fp / price ≤ 1 + ((⌈x⌉.toNat : ℚ)) * si := by linarith
    have h7 := mul_le_mul_of_nonneg_left h6 hp.le
    linarith

theorem liquidation_first_cross (price fp step_pct : ℚ)
    (hp : 0 < price) (hs : 0 < step_pct) (hfp : fp < price) :
    1 ≤ ⌈(1 - fp / price) / (step_pct / 100)⌉ ∧
    (∀ m : ℕ, m < (⌈(1 - fp / price) / (step_pct / 100)⌉).toNat →
      fp < price * (1 - (m : ℚ) * (step_pct / 100))) ∧
    price * (1 - ((⌈(1 - fp / price) / (step_pct / 100)⌉).toNat : ℚ) * (step_pct / 100)) ≤ fp := by
  set si : ℚ := step_pct / 100 with hsidef
  have hsi : 0 < si := by positivity
  set y : ℚ := (1 - fp / price) / si with hydef
  have hfrac : fp / price < 1 := (div_lt_one hp).mpr hfp
  have hy : 0 < y := div_pos (by linarith) hsi
  have hy1 : (0:ℤ) < ⌈y⌉ := Int.ceil_pos.mpr hy
  have hcast : ((⌈y⌉.toNat : ℚ)) = ((⌈y⌉ : ℤ) : ℚ) := by
    exact_mod_cast congrArg (Int.cast : ℤ → ℚ) (Int.toNat_of_nonneg (le_of_lt hy1))
  have hpp : price * (fp / price) = fp := by field_simp
  refine ⟨hy1, fun m hm => ?_, ?_⟩
  · have hmz : (m : ℤ) ≤ ⌈y⌉ - 1 := by omega
    have hmq : (m : ℚ) ≤ ((⌈y⌉ : ℤ) : ℚ) - 1 := by exact_mod_cast hmz
    have hceil : ((⌈y⌉ : ℤ) : ℚ) < y + 1 := Int.ceil_lt_add_one y
    have hmy : (m : ℚ) < y := by linarith
    have h2 : (m : ℚ) * si < 1 - fp / price := (lt_div_iff hsi).mp hmy
    have h4 : fp / price < 1 - (m : ℚ) * si := by linarith
    have h5 := mul_lt_mul_of_pos_left h4 hp
    linarith
  · have hyle : y ≤ ((⌈y⌉ : ℤ) : ℚ) := Int.le_ceil y
    have hyle2 : y ≤ ((⌈y⌉.toNat : ℚ)) := by rw [hcast]; exact hyle
    have h2 : 1 - fp / price ≤ ((⌈y⌉.toNat : ℚ)) * si := (div_le_iff hsi).mp hyle2
    have h6 : 1 - ((⌈y⌉.toNat : ℚ)) * si ≤ fp / price := by linarith
    have h7 := mul_le_mul_of_nonneg_left h6 hp.le
    linarith

theorem save_buyback_q1_run (price supply ph fp step_pct : ℚ)
    (hT : 0 < supply * ph) (hp : 0 < price) (hs : 0 < step_pct) (hfp : price < fp)
    (fuel : ℕ) (hfuel : (⌈(fp / price - 1) / (step_pct / 100)⌉).toNat + 1 ≤ fuel) :
    ∃ rows, save_buyback_model fuel price supply ph fp 0 step_pct = ModelResult.ok rows ∧
      rows.length = (buybackSteps price fp step_pct).toNat ∧
      (∀ r ∈ rows, r.tokens_sold
        = supply * ph / ((buybackSteps price fp step_pct : ℤ) : ℚ)) ∧
      (rows.map SRow.tokens_sold).sum = supply * ph ∧
      rows ≠ [] := by
  obtain ⟨hc1, hlt, hcross⟩ := buyback_first_cross price fp step_pct hp hs hfp
  have hq1 : (1 : ℚ) + 0 / 100 = 1 := by norm_num
  have hstepsne : ⌈(fp / price - 1) / (step_pct / 100)⌉ + 1 ≠ 0 := by omega
  obtain ⟨rows, hrows, hlen, htok⟩ :=
    buybackLoop_run price fp (step_pct / 100) 1 supply
      (⌈(fp / price - 1) / (step_pct / 100)⌉).toNat 1 hlt hcross fuel hfuel 1
      (supply * ph / ((⌈(fp / price - 1) / (step_pct / 100)⌉ + 1 : ℤ) : ℚ)) 0 0
  refine ⟨rows, ?_, ?_, ?_, ?_, ?_⟩
  · simp only [save_buyback_model, if_neg (not_le.mpr hT), hq1, if_true]
    rw [if_neg hstepsne, hrows]
    rfl
  · rw [buybackSteps, hlen]
    omega
  · intro r hr
    rw [buybackSteps]
    exact htok rfl r hr
  · rw [map_sum_of_const_tokens rows _ (htok rfl), hlen]
    have hc2 : ((⌈(fp / price - 1) / (step_pct / 100)⌉.toNat : ℕ) : ℚ)
        = ((⌈(fp / price - 1) / (step_pct / 100)⌉ : ℤ) : ℚ) := by
      exact_mod_cast congrArg (Int.cast : ℤ → ℚ) (Int.toNat_of_nonneg
        (by omega : (0:ℤ) ≤ ⌈(fp / price - 1) / (step_pct / 100)⌉))
    have hcastlen : ((⌈(fp / price - 1) / (step_pct / 100)⌉.toNat + 1 : ℕ) : ℚ)
        = ((⌈(fp / price - 1) / (step_pct / 100)⌉ + 1 : ℤ) : ℚ) := by
      push_cast
      rw [hc2]
    rw [hcastlen, mul_comm,
      div_mul_cancel₀ _ (by exact_mod_cast hstepsne : ((⌈(fp / price - 1)
        / (step_pct / 100)⌉ + 1 : ℤ) : ℚ) ≠ 0)]
  · have : 0 < rows.length := by omega
    exact List.ne_nil_of_length_pos this

theorem save_liquidation_q1_run (price supply ph fp step_pct : ℚ)
    (hT : 0 < supply * ph) (hp : 0 < price) (hs : 0 < step_pct) (hfp : fp < price)
    (fuel : ℕ) (hfuel : (⌈(1 - fp / price) / (step_pct / 100)⌉).toNat + 1 ≤ fuel) :
    ∃ rows, save_liquidation_model fuel price supply ph fp 0 step_pct = ModelResult.ok rows ∧
      rows.length = (liquidationSteps price fp step_pct).toNat ∧
      (∀ r ∈ rows, r.tokens_sold
        = supply * ph / ((liquidationSteps price fp step_pct : ℤ) : ℚ)) ∧
      (rows.map SRow.tokens_sold).sum = supply * ph ∧
      rows ≠ [] := by
  obtain ⟨hc1, hlt, hcross⟩ := liquidation_first_cross price fp step_pct hp hs hfp
  have hq1 : (1 : ℚ) + 0 / 100 = 1 := by norm_num
  have hmax : max 1 (⌈(1 - fp / price) / (step_pct / 100)⌉ + 1)
      = ⌈(1 - fp / price) / (step_pct / 100)⌉ + 1 := max_eq_right (by omega)
  have hstepsne : ⌈(1 - fp / price) / (step_pct / 100)⌉ + 1 ≠ 0 := by omega
  obtain ⟨rows, hrows, hlen, htok⟩ :=
    liquidationLoop_run price fp (step_pct / 100) 1 supply
      (⌈(1 - fp / price) / (step_pct / 100)⌉).toNat 1 hlt hcross fuel hfuel 1
      (supply * ph / ((⌈(1 - fp / price) / (step_pct / 100)⌉ + 1 : ℤ) : ℚ)) 0 0
  refine ⟨rows, ?_, ?_, ?_, ?_, ?_⟩
  · simp only [save_liquidation_model, if_neg (not_le.mpr hT), hq1, if_true, hmax]
    rw [if_neg hstepsne, hrows]
    rfl
  · rw [liquidationSteps, hmax, hlen]
    omega
  · intro r hr
    rw [liquidationSteps, hmax]
    exact htok rfl r hr
  · rw [map_sum_of_const_tokens rows _ (htok rfl), hlen]
    have hc2 : ((⌈(1 - fp / price) / (step_pct / 100)⌉.toNat : ℕ) : ℚ)
        = ((⌈(1 - fp / price) / (step_pct / 100)⌉ : ℤ) : ℚ) := by
      exact_mod_cast congrArg (Int.cast : ℤ → ℚ) (Int.toNat_of_nonneg
        (by omega : (0:ℤ) ≤ ⌈(1 - fp / price) / (step_pct / 100)⌉))
    have hcastlen : ((⌈(1 - fp / price) / (step_pct / 100)⌉.toNat + 1 : ℕ) : ℚ)
        = ((⌈(1 - fp / price) / (step_pct / 100)⌉ + 1 : ℤ) : ℚ) := by
      push_cast
      rw [hc2]
    rw [hcastlen, mul_comm,
      div_mul_cancel₀ _ (by exact_mod_cast hstepsne : ((⌈(1 - fp / price)
        / (step_pct / 100)⌉ + 1 : ℤ) : ℚ) ≠ 0)]
  · have : 0 < rows.length := by omega
    exact List.ne_nil_of_length_pos this

theorem mem_map_fst_iff (res : List (String × List Candle)) (ex : String) :
    ex ∈ res.map Prod.fst ↔ ∃ d, (ex, d) ∈ res := by
  rw [List.mem_map]
  constructor
  · rintro ⟨⟨a, d⟩, hmem, rfl⟩
    exact ⟨d, hmem⟩
  · rintro ⟨d, hmem⟩
    exact ⟨(ex, d), hmem, rfl⟩

theorem fetchPhase1_keys (env : FetchEnv) :
    ∀ (l : List String) (acc : List (String × List Candle)) (ex : String),
      ex ∈ (fetchPhase1 env l acc).map Prod.fst ↔
        ex ∈ acc.map Prod.fst ∨ (ex ∈ l ∧
          (firstSuccess (env.fetchSymbol ex) (env.marketsByExchange ex)).isSome) := by
  intro l
  induction l with
  | nil =>
    intro acc ex
    simp [fetchPhase1]
  | cons e rest ih =>
    intro acc ex
    simp only [fetchPhase1]
    by_cases hx : ex = e
    · subst hx
      cases hfs : firstSuccess (env.fetchSymbol ex) (env.marketsByExchange ex) with
      | some d => simp [ih, hfs]
      | none => simp [ih, hfs]
    · cases hfs : firstSuccess (env.fetchSymbol e) (env.marketsByExchange e) with
      | some d => simp [ih, hx]
      | none => simp [ih, hx]

theorem fetchPhase2_keys (env : FetchEnv) :
    ∀ (l : List String) (acc : List (String × List Candle)) (ex : String),
      ex ∈ (fetchPhase2 env l acc).map Prod.fst ↔
        ex ∈ acc.map Prod.fst ∨ (ex ∈ l ∧
          (firstSuccess (env.fetchSymbol ex) (env.genericSymbols ex)).isSome) := by
  intro l
  induction l with
  | nil =>
    intro acc ex
    simp [fetchPhase2]
  | cons e rest ih =>
    intro acc ex
    simp only [fetchPhase2]
    by_cases hc : (acc.map Prod.fst).contains e
    · rw [if_pos hc]
      by_cases hx : ex = e
      · subst hx
        have hmem : ex ∈ acc.map Prod.fst := by simpa using hc
        simp [ih, hmem]
      · simp [ih, hx]
    · rw [if_neg hc]
      by_cases hx : ex = e
      · subst hx
        cases hfs : firstSuccess (env.fetchSymbol ex) (env.genericSymbols ex) with
        | some d => simp [ih, hfs]
        | none => simp [ih, hfs]
      · cases hfs : firstSuccess (env.fetchSymbol e) (env.genericSymbols e) with
        | some d => simp [ih, hx]
        | none => simp [ih, hx]

theorem fetchResults_keys (env : FetchEnv) (ex : String) :
    ex ∈ (fetchResults env).map Prod.fst ↔
      ex ∈ env.exchangesToTry ∧ venueSucceeds env ex = true := by
  rw [fetchResults, fetchPhase2_keys, fetchPhase1_keys]
  simp only [List.map_nil, List.not_mem_nil, false_or, venueSucceeds, Bool.or_eq_true]
  tauto

theorem takeLast_pairwise {R : Candle → Candle → Prop} (n : ℕ) (l : List Candle)
    (h : l.Pairwise R) : (takeLast n l).Pairwise R :=
  h.sublist (List.drop_sublist _ _)

theorem sorted_le_getLast (l : List Candle) (h : l ≠ [])
    (hs : l.Pairwise (fun a b => a.ts < b.ts)) :
    ∀ c ∈ l, c.ts ≤ (l.getLast h).ts := by
  induction l with
  | nil => exact absurd rfl h
  | cons a t ih =>
    intro c hc
    cases t with
    | nil =>
      rw [List.mem_singleton.mp hc]
      exact le_rfl
    | cons b t2 =>
      rcases List.mem_cons.mp hc with rfl | hct
      · have hlast : (b :: t2).getLast (by simp) ∈ b :: t2 := List.getLast_mem _
        have := (List.pairwise_cons.mp hs).1 _ hlast
        rw [List.getLast_cons (by simp)]
        exact le_of_lt this
      · have := ih (by simp) (List.pairwise_cons.mp hs).2 c hct
        rw [List.getLast_cons (by simp)]
        exact this

theorem fetchPaginated_sorted (f : ℤ → List Candle)
    (hsort : ∀ s, (f s).Pairwise (fun a b => a.ts < b.ts))
    (hsince : ∀ s, ∀ c ∈ f s, s ≤ c.ts) :
    ∀ (fuel : ℕ) (since : ℤ) (acc : List Candle),
      acc.Pairwise (fun a b => a.ts < b.ts) →
      (∀ c ∈ acc, c.ts < since) →
      ∀ rows, fetchPaginated f fuel since acc = some rows →
        rows.Pairwise (fun a b => a.ts < b.ts) := by
  intro fuel
  induction fuel with
  | zero =>
    intro since acc _ _ rows h
    simp [fetchPaginated] at h
  | succ n ih =>
    intro since acc hacc hlt rows h
    simp only [fetchPaginated] at h
    by_cases hb : f since = []
    · rw [dif_pos hb] at h
      rw [← Option.some.inj h]
      exact hacc
    · rw [dif_neg hb] at h
      have hacc2 : (acc ++ f since).Pairwise (fun a b => a.ts < b.ts) :=
        List.pairwise_append.mpr ⟨hacc, hsort since,
          fun a ha b hb2 => lt_of_lt_of_le (hlt a ha) (hsince since b hb2)⟩
      by_cases hlen : DAYS_LIMIT ≤ (acc ++ f since).length
      · rw [if_pos hlen] at h
        rw [← Option.some.inj h]
        exact takeLast_pairwise _ _ hacc2
      · rw [if_neg hlen] at h
        refine ih _ _ hacc2 ?_ rows h
        intro c hc
        have hms : (0:ℤ) < MS_IN_DAY := by norm_num [MS_IN_DAY]
        have hlast : since ≤ (((f since).getLast hb).ts) :=
          hsince since _ (List.getLast_mem hb)
        rcases List.mem_append.mp hc with hca | hcb
        · have := hlt c hca
          omega
        · have := sorted_le_getLast (f since) hb (hsort since) c hcb
          omega

/-- The native-pagination series: strictly ascending timestamps whenever the
upstream batches are strictly ascending and respect the `since` cursor. -/
theorem fetchFromExchangePaginated_sorted (f : ℤ → List Candle)
    (hsort : ∀ s, (f s).Pairwise (fun a b => a.ts < b.ts))
    (hsince : ∀ s, ∀ c ∈ f s, s ≤ c.ts)
    (fuel : ℕ) (since_start : ℤ) (rows : List Candle)
    (h : fetchFromExchangePaginated f fuel since_start = some rows) :
    rows.Pairwise (fun a b => a.ts < b.ts) := by
  rw [fetchFromExchangePaginated] at h
  cases hp : fetchPaginated f fuel since_start [] with
  | none =>
    rw [hp] at h
    simp at h
  | some acc =>
    rw [hp, Option.map_some'] at h
    rw [← Option.some.inj h]
    exact takeLast_pairwise _ _
      (fetchPaginated_sorted f hsort hsince fuel since_start [] (by simp) (by simp) acc hp)

theorem lookup_eq_none_not_mem (k : ℤ) (b : List (ℤ × Candle))
    (h : b.lookup k = none) : k ∉ b.map Prod.fst := by
  induction b with
  | nil => simp
  | cons kc t ih =>
    simp only [List.lookup] at h
    by_cases hk : k = kc.1
    · rw [show (k == kc.1) = true from beq_iff_eq.mpr hk] at h
      simp at h
    · rw [show (k == kc.1) = false from beq_eq_false_iff_ne.mpr hk] at h
      simp only [List.map_cons, List.mem_cons]
      rintro (h1 | h1)
      · exact hk h1
      · exact ih h h1

theorem mem_keys_lookup_isSome (k : ℤ) (b : List (ℤ × Candle))
    (h : k ∈ b.map Prod.fst) : ∃ c, b.lookup k = some c := by
  cases hl : b.lookup k with
  | none => exact absurd h (lookup_eq_none_not_mem k b hl)
  | some c => exact ⟨c, rfl⟩

theorem lookup_mem (k : ℤ) (c : Candle) (b : List (ℤ × Candle))
    (h : b.lookup k = some c) : (k, c) ∈ b := by
  induction b with
  | nil => simp [List.lookup] at h
  | cons kc t ih =>
    simp only [List.lookup] at h
    by_cases hk : k = kc.1
    · rw [show (k == kc.1) = true from beq_iff_eq.mpr hk] at h
      simp only [Option.some.injEq] at h
      refine List.mem_cons.mpr (Or.inl ?_)
      rw [hk, ← h]
    · rw [show (k == kc.1) = false from beq_eq_false_iff_ne.mpr hk] at h
      exact List.mem_cons_of_mem _ (ih h)

theorem addTradeToBuckets_inv (duration : ℤ) (b : List (ℤ × Candle)) (t : Trade)
    (hnd : (b.map Prod.fst).Nodup) (hts : ∀ kc ∈ b, (kc.2).ts = kc.1) :
    ((addTradeToBuckets duration b t).map Prod.fst).Nodup ∧
    (∀ kc ∈ addTradeToBuckets duration b t, (kc.2).ts = kc.1) := by
  rw [addTradeToBuckets]
  cases hl : b.lookup (bucketKey duration t) with
  | some c =>
    have hkeys : (b.map (fun kc =>
        if kc.1 = bucketKey duration t then (kc.1, applyTrade t kc.2) else kc)).map Prod.fst
        = b.map Prod.fst := by
      rw [List.map_map]
      refine List.map_congr_left (fun kc _ => ?_)
      by_cases hk : kc.1 = bucketKey duration t <;> simp [hk]
    refine ⟨by rw [hkeys]; exact hnd, ?_⟩
    intro kc hkc
    obtain ⟨kc0, hkc0, heq⟩ := List.mem_map.mp hkc
    by_cases hk : kc0.1 = bucketKey duration t
    · rw [if_pos hk] at heq
      rw [← heq]
      exact hts kc0 hkc0
    · rw [if_neg hk] at heq
      rw [← heq]
      exact hts kc0 hkc0
  | none =>
    constructor
    · rw [List.map_append]
      simp only [List.map_cons, List.map_nil]
      rw [List.nodup_append]
      exact ⟨hnd, List.nodup_singleton _,
        fun k hk => by
          simp only [List.mem_singleton]
          intro hkk
          exact absurd (hkk ▸ hk) (lookup_eq_none_not_mem _ b hl)⟩
    · intro kc hkc
      rcases List.mem_append.mp hkc with hm | hm
      · exact hts kc hm
      · rw [List.mem_singleton.mp hm]
        rfl

theorem bucketsFold_inv (duration : ℤ) :
    ∀ (trades : List Trade) (b : List (ℤ × Candle)),
      (b.map Prod.fst).Nodup → (∀ kc ∈ b, (kc.2).ts = kc.1) →
      ((trades.foldl (addTradeToBuckets duration) b).map Prod.fst).Nodup ∧
      (∀ kc ∈ trades.foldl (addTradeToBuckets duration) b, (kc.2).ts = kc.1) := by
  intro trades
  induction trades with
  | nil => intro b hnd hts; exact ⟨hnd, hts⟩
  | cons t rest ih =>
    intro b hnd hts
    obtain ⟨hnd2, hts2⟩ := addTradeToBuckets_inv duration b t hnd hts
    exact ih _ hnd2 hts2

theorem filterMap_lookup_sorted (b : List (ℤ × Candle))
    (hts : ∀ kc ∈ b, (kc.2).ts = kc.1) :
    ∀ L : List ℤ, L.Pairwise (· < ·) → (∀ k ∈ L, k ∈ b.map Prod.fst) →
      (L.filterMap (fun k => b.lookup k)).Pairwise (fun a b => a.ts < b.ts) := by
  intro L
  induction L with
  | nil => intro _ _; simp
  | cons k rest ih =>
    intro hp hmem
    obtain ⟨c, hc⟩ := mem_keys_lookup_isSome k b (hmem k (by simp))
    have hcts : c.ts = k := hts (k, c) (lookup_mem k c b hc)
    simp only [List.filterMap_cons, hc]
    refine List.pairwise_cons.mpr ⟨?_, ih (List.pairwise_cons.mp hp).2
      (fun k2 hk2 => hmem k2 (by simp [hk2]))⟩
    intro c2 hc2
    obtain ⟨k2, hk2mem, hk2look⟩ := List.mem_filterMap.mp hc2
    have hc2ts : c2.ts = k2 := hts (k2, c2) (lookup_mem k2 c2 b hk2look)
    rw [hcts, hc2ts]
    exact (List.pairwise_cons.mp hp).1 k2 hk2mem

/-- A single trade batch reconstruction always has strictly ascending
timestamps: the buckets are emitted in ascending key order and each bucket's
timestamp is its key. -/
theorem trades_to_ohlcv_sorted (duration : ℤ) (trades : List Trade) :
    (trades_to_ohlcv duration trades).Pairwise (fun a b => a.ts < b.ts) := by
  rw [trades_to_ohlcv]
  obtain ⟨hnd, hts⟩ := bucketsFold_inv duration trades [] (by simp) (by simp)
  have hperm := List.perm_insertionSort (· ≤ ·)
    ((trades.foldl (addTradeToBuckets duration) []).map Prod.fst)
  have hsorted : (List.insertionSort (· ≤ ·)
      ((trades.foldl (addTradeToBuckets duration) []).map Prod.fst)).Sorted (· ≤ ·) :=
    List.sorted_insertionSort _ _
  have hnd2 := hperm.nodup_iff.mpr hnd
  have hstrict : (List.insertionSort (· ≤ ·)
      ((trades.foldl (addTradeToBuckets duration) []).map Prod.fst)).Pairwise (· < ·) :=
    (hsorted.and hnd2).imp (fun h => lt_of_le_of_ne h.1 h.2)
  exact filterMap_lookup_sorted _ hts _ hstrict (fun k hk => hperm.mem_iff.mp hk)

/-- The aggregator-fallback series preserves a strictly ascending upstream
payload: truncation and the zero-volume conversion keep the order. -/
theorem coingeckoSeries_sorted (data : List CGRow)
    (h : data.Pairwise (fun a b => a.ts < b.ts)) :
    (coingeckoSeries data).Pairwise (fun a b => a.ts < b.ts) := by
  rw [coingeckoSeries, List.pairwise_map]
  exact (h.sublist (List.drop_sublist _ _)).imp (fun hab => hab)

/-! ## Claims -/

theorem build_from_trades_succ (env : TradesEnv) (duration : ℤ) (fuel : ℕ)
    (start : ℤ) (all_data : List Candle) :
    build_from_trades env duration (fuel + 1) start all_data
      = if start < env.now_ms ∧ all_data.length < DAYS_LIMIT then
          (if h : env.fetchTrades start = [] then
            build_from_trades env duration fuel (start + duration) all_data
          else
            build_from_trades env duration fuel
              (((env.fetchTrades start).getLast h).ts + 1)
              (all_data ++ trades_to_ohlcv duration (env.fetchTrades start)))
        else some (takeLast DAYS_LIMIT all_data) := rfl

/-- Claim C2 counterexample: the engine does not deduplicate day buckets
across trade batches.  In `tradeDupEnv` two consecutive batches fall into the
same day bucket (timestamp 0), and `_build_from_trades` returns a series with
the timestamp 0 twice — not strictly ascending, not uniquely keyed. -/
theorem candle_series_unique_ts_counterexample :
    build_from_trades tradeDupEnv 86400000 5 0 []
      = some [⟨0, 1, 1, 1, 1, 1⟩, ⟨0, 2, 2, 2, 2, 1⟩] ∧
    ¬ (([⟨0, 1, 1, 1, 1, 1⟩, ⟨0, 2, 2, 2, 2, 1⟩] : List Candle).Pairwise
        (fun a b => a.ts < b.ts)) := by
  have hf1 : Int.fdiv 100 86400000 = 0 := by decide
  have hf2 : Int.fdiv 200 86400000 = 0 := by decide
  have h1 : trades_to_ohlcv 86400000 [⟨100, 1, 1⟩] = [⟨0, 1, 1, 1, 1, 1⟩] := by
    norm_num [trades_to_ohlcv, addTradeToBuckets, applyTrade, bucketKey,
      List.insertionSort, List.orderedInsert, List.lookup, hf1,
      List.filterMap_cons, List.filterMap_nil, beq_self_eq_true]
  have h2 : trades_to_ohlcv 86400000 [⟨200, 2, 1⟩] = [⟨0, 2, 2, 2, 2, 1⟩] := by
    norm_num [trades_to_ohlcv, addTradeToBuckets, applyTrade, bucketKey,
      List.insertionSort, List.orderedInsert, List.lookup, hf2,
      List.filterMap_cons, List.filterMap_nil, beq_self_eq_true]
  constructor
  · rw [show (5:ℕ) = 4 + 1 from rfl, build_from_trades_succ]
    norm_num [tradeDupEnv, DAYS_LIMIT, h1]
    rw [show (4:ℕ) = 3 + 1 from rfl, build_from_trades_succ]
    norm_num [tradeDupEnv, DAYS_LIMIT, h2]
    rw [show (3:ℕ) = 2 + 1 from rfl, build_from_trades_succ]
    norm_num [tradeDupEnv, DAYS_LIMIT]
    rw [show (2:ℕ) = 1 + 1 from rfl, build_from_trades_succ]
    norm_num [tradeDupEnv, DAYS_LIMIT, takeLast]
  · simp

/-- Claim C2 (amended): candle series built by native-OHLC pagination have
strictly ascending (hence duplicate-free) timestamps whenever each upstream
batch is strictly ascending and respects the `since` cursor; each single
trade-batch reconstruction is strictly ascending; and the aggregator-fallback
series is strictly ascending whenever the upstream payload is.  Across
consecutive trade batches, however, the engine performs no deduplication, and
a day bucket spanning a batch boundary is emitted twice (see the
counterexample). -/
theorem candle_series_timestamps (f : ℤ → List Candle) (data : List CGRow)
    (duration : ℤ) (trades : List Trade) (fuel : ℕ) (since_start : ℤ) :
    ((∀ s, (f s).Pairwise (fun a b => a.ts < b.ts)) →
      (∀ s, ∀ c ∈ f s, s ≤ c.ts) →
      ∀ rows, fetchFromExchangePaginated f fuel since_start = some rows →
        rows.Pairwise (fun a b => a.ts < b.ts)) ∧
    (trades_to_ohlcv duration trades).Pairwise (fun a b => a.ts < b.ts) ∧
    (data.Pairwise (fun a b => a.ts < b.ts) →
      (coingeckoSeries data).Pairwise (fun a b => a.ts < b.ts)) :=
  ⟨fun hsort hsince rows h =>
      fetchFromExchangePaginated_sorted f hsort hsince fuel since_start rows h,
    trades_to_ohlcv_sorted duration trades,
    fun h => coingeckoSeries_sorted data h⟩

/-- Claim C2 witness: the amended statement instantiated on a one-batch
environment, a two-trade batch, and a two-row aggregator payload. -/
theorem candle_series_timestamps_witness :
    ((fun s : ℤ => if s < 1 then [(⟨0, 1, 1, 1, 1, 1⟩ : Candle)] else []) 0).Pairwise
        (fun a b => a.ts < b.ts) ∧
    (∃ rows, fetchFromExchangePaginated
        (fun s : ℤ => if s < 1 then [(⟨0, 1, 1, 1, 1, 1⟩ : Candle)] else []) 3 0
        = some rows ∧ rows.Pairwise (fun a b => a.ts < b.ts)) ∧
    (trades_to_ohlcv 86400000 [⟨100, 1, 1⟩, ⟨200, 2, 1⟩]).Pairwise
      (fun a b => a.ts < b.ts) ∧
    (coingeckoSeries [⟨0, 1, 2, 1, 2⟩, ⟨1, 2, 3, 2, 3⟩]).Pairwise
      (fun a b => a.ts < b.ts) := by
  have hsort : ∀ s : ℤ, ((fun s : ℤ => if s < 1 then [(⟨0, 1, 1, 1, 1, 1⟩ : Candle)]
      else []) s).Pairwise (fun a b => a.ts < b.ts) := by
    intro s
    by_cases hs : s < 1 <;> simp [hs]
  have hsince : ∀ s : ℤ, ∀ c ∈ (fun s : ℤ => if s < 1 then
      [(⟨0, 1, 1, 1, 1, 1⟩ : Candle)] else []) s, s ≤ c.ts := by
    intro s c hc
    by_cases hs : s < 1
    · simp only [hs, if_true, List.mem_singleton] at hc
      rw [hc]
      show s ≤ (0 : ℤ)
      omega
    · simp [hs] at hc
  have hrun : fetchFromExchangePaginated
      (fun s : ℤ => if s < 1 then [(⟨0, 1, 1, 1, 1, 1⟩ : Candle)] else []) 3 0
      = some [⟨0, 1, 1, 1, 1, 1⟩] := by
    norm_num [fetchFromExchangePaginated, fetchPaginated, takeLast, DAYS_LIMIT,
      MS_IN_DAY]
  refine ⟨hsort 0, ⟨[⟨0, 1, 1, 1, 1, 1⟩], hrun, ?_⟩,
    (candle_series_timestamps (fun _ => []) [] 86400000 [⟨100, 1, 1⟩, ⟨200, 2, 1⟩]
      0 0).2.1,
    (candle_series_timestamps (fun _ => []) [⟨0, 1, 2, 1, 2⟩, ⟨1, 2, 3, 2, 3⟩]
      86400000 [] 0 0).2.2 (by simp)⟩
  exact (candle_series_timestamps
    (fun s : ℤ => if s < 1 then [(⟨0, 1, 1, 1, 1, 1⟩ : Candle)] else [])
    [] 86400000 [] 3 0).1 hsort hsince _ hrun

/-- Claim C1: `fetch_ohlcv` raises only on total exhaustion.  If at least one
attempted exchange yields data it returns `(results, failures)` without
raising, where `failures` is exactly the attempted exchanges absent from
`results` (an exchange succeeding via any fallback tier is excluded); and it
raises if and only if no attempted exchange yields data and the terminal
aggregator fallback itself fails or returns an empty payload. -/
theorem fetch_raises_only_on_exhaustion (env : FetchEnv) :
    ((∃ ex ∈ env.exchangesToTry, venueSucceeds env ex = true) →
      ∃ res fl, fetch_ohlcv env = Except.ok (res, fl) ∧
        (∀ ex, ex ∈ fl ↔ ex ∈ env.exchangesToTry ∧ ¬ ∃ d, (ex, d) ∈ res) ∧
        (∀ ex ∈ env.exchangesToTry, venueSucceeds env ex = true → ex ∉ fl)) ∧
    ((∃ msg, fetch_ohlcv env = Except.error msg) ↔
      ((∀ ex ∈ env.exchangesToTry, venueSucceeds env ex = false) ∧
        (env.aggregator = none ∨ env.aggregator = some []))) := by
  have hflmem : ∀ ex, ex ∈ fetchFailures env (fetchResults env) ↔
      ex ∈ env.exchangesToTry ∧ ¬ ex ∈ (fetchResults env).map Prod.fst := by
    intro ex
    rw [fetchFailures, List.mem_filter]
    simp
  constructor
  · rintro ⟨ex, hex, hsucc⟩
    have hne : fetchResults env ≠ [] := by
      intro h0
      have hk := (fetchResults_keys env ex).mpr ⟨hex, hsucc⟩
      rw [h0] at hk
      simp at hk
    rw [fetch_ohlcv, if_neg hne]
    refine ⟨fetchResults env, fetchFailures env (fetchResults env), rfl, ?_, ?_⟩
    · intro ex2
      rw [hflmem ex2, mem_map_fst_iff]
    · intro ex2 hex2 hsucc2 hfl
      have hk := (fetchResults_keys env ex2).mpr ⟨hex2, hsucc2⟩
      exact ((hflmem ex2).mp hfl).2 hk
  · constructor
    · rintro ⟨msg, hmsg⟩
      by_cases hne : fetchResults env = []
      · refine ⟨?_, ?_⟩
        · intro ex2 hex2
          rcases Bool.eq_false_or_eq_true (venueSucceeds env ex2) with ht | hf
          · exfalso
            have hk := (fetchResults_keys env ex2).mpr ⟨hex2, ht⟩
            rw [hne] at hk
            simp at hk
          · exact hf
        · rw [fetch_ohlcv, if_pos hne] at hmsg
          cases hagg : env.aggregator with
          | none => exact Or.inl rfl
          | some data =>
            rw [hagg] at hmsg
            by_cases hd : data = []
            · exact Or.inr (by rw [hd])
            · simp [hd] at hmsg
      · rw [fetch_ohlcv, if_neg hne] at hmsg
        exact absurd hmsg (by simp)
    · rintro ⟨hfail, hagg⟩
      have hne : fetchResults env = [] := by
        cases hres : fetchResults env with
        | nil => rfl
        | cons p t =>
          exfalso
          have hk : p.1 ∈ (fetchResults env).map Prod.fst := by
            rw [hres]
            simp
          obtain ⟨hmem, hsucc⟩ := (fetchResults_keys env p.1).mp hk
          rw [hfail p.1 hmem] at hsucc
          exact Bool.false_ne_true hsucc
      rw [fetch_ohlcv, if_pos hne]
      rcases hagg with h | h
      · rw [h]
        exact ⟨_, rfl⟩
      · rw [h]
        exact ⟨_, rfl⟩

/-- Claim C1 witness: a two-exchange environment in which only `"alpha"`
yields data and the aggregator is unreachable; the fetch returns normally,
`"beta"` is the only failure, and `"alpha"` is excluded from the failures. -/
theorem fetch_raises_only_on_exhaustion_witness :
    ∃ res fl,
      fetch_ohlcv
          { exchangesToTry := ["alpha", "beta"]
            marketsByExchange := fun ex => if ex = "alpha" then ["AAA/USDT"] else ["AAA/USD"]
            fetchSymbol := fun ex _ => if ex = "alpha" then [⟨0, 1, 2, 1, 2, 5⟩] else []
            genericSymbols := fun _ => []
            aggregator := none }
        = Except.ok (res, fl) ∧
      (∀ ex, ex ∈ fl ↔ ex ∈ ["alpha", "beta"] ∧ ¬ ∃ d, (ex, d) ∈ res) ∧
      (∀ ex ∈ ["alpha", "beta"],
        venueSucceeds
            { exchangesToTry := ["alpha", "beta"]
              marketsByExchange := fun ex => if ex = "alpha" then ["AAA/USDT"] else ["AAA/USD"]
              fetchSymbol := fun ex _ => if ex = "alpha" then [⟨0, 1, 2, 1, 2, 5⟩] else []
              genericSymbols := fun _ => []
              aggregator := none }
            ex = true → ex ∉ fl) :=
  (fetch_raises_only_on_exhaustion _).1
    ⟨"alpha", by simp, by simp [venueSucceeds, firstSuccess]⟩

/-- Claim C8 counterexample: at a desired window of 731 days no element of
`COINGECKO_ALLOWED_DAYS` is `≥` the window, yet `_coingecko_days` returns 730;
the day-count is therefore not "the smallest element of the list that is
greater than or equal to the desired window", which does not exist there. -/
theorem coingecko_days_snap_up_counterexample :
    coingecko_days 731 = 730 ∧ ∀ d ∈ COINGECKO_ALLOWED_DAYS, ¬ (731 ≤ d) := by
  decide

set_option maxRecDepth 40000 in
/-- Claim C8 (amended): for every desired window of at most 730 days (the
largest accepted value), `_coingecko_days` returns the smallest element of
`COINGECKO_ALLOWED_DAYS` that is greater than or equal to the window; for any
larger window it returns the largest accepted value, 730. -/
theorem coingecko_days_snap_up (limit : ℕ) :
    (limit ≤ 730 →
      coingecko_days limit ∈ COINGECKO_ALLOWED_DAYS ∧
      limit ≤ coingecko_days limit ∧
      ∀ d ∈ COINGECKO_ALLOWED_DAYS, limit ≤ d → coingecko_days limit ≤ d) ∧
    (730 < limit → coingecko_days limit = 730) := by
  constructor
  · intro h
    revert h
    revert limit
    decide
  · intro h
    have hn : COINGECKO_ALLOWED_DAYS.find? (fun day => decide (limit ≤ day)) = none := by
      apply List.find?_eq_none.mpr
      intro x hx
      fin_cases hx <;> simp <;> omega
    unfold coingecko_days
    rw [hn]
    rfl

/-- Claim C8 witness: at the source's actual window `DAYS_LIMIT = 364` the
snapped value is the smallest accepted value `≥ 364`. -/
theorem coingecko_days_snap_up_witness :
    364 ≤ 730 ∧
      (coingecko_days 364 ∈ COINGECKO_ALLOWED_DAYS ∧
       364 ≤ coingecko_days 364 ∧
       ∀ d ∈ COINGECKO_ALLOWED_DAYS, 364 ≤ d → coingecko_days 364 ≤ d) :=
  ⟨by decide, (coingecko_days_snap_up 364).1 (by decide)⟩

/-- Claim C3: for thresholds `t > 1` a candle is a surge event iff
`open > 0` and `high / open ≥ t`; for `t < 1` it is a selloff event iff
`open > 0` and `low / open ≤ t`; a candle with `open ≤ 0` never qualifies for
either. -/
theorem surge_selloff_classification (t : ℚ) (c : Candle) :
    (1 < t → (surgeQualifies t c = true ↔ 0 < c.open_ ∧ t ≤ c.high / c.open_)) ∧
    (t < 1 → (selloffQualifies t c = true ↔ 0 < c.open_ ∧ c.low / c.open_ ≤ t)) ∧
    (c.open_ ≤ 0 → surgeQualifies t c = false ∧ selloffQualifies t c = false) := by
  refine ⟨fun _ => ?_, fun _ => ?_, fun h => ?_⟩
  · simp [surgeQualifies]
  · simp [selloffQualifies]
  · have h0 : ¬ (0 < c.open_) := not_lt.mpr h
    simp [surgeQualifies, selloffQualifies, h0]

/-- Claim C3 witness: the classification instantiated on concrete candles,
one with positive open qualifying both ways and one with `open = 0`. -/
theorem surge_selloff_classification_witness :
    (surgeQualifies 2 ⟨0, 1, 3, 1/4, 1, 5⟩ = true ↔ (0:ℚ) < 1 ∧ (2:ℚ) ≤ 3 / 1) ∧
    (selloffQualifies (1/2) ⟨0, 1, 3, 1/4, 1, 5⟩ = true ↔ (0:ℚ) < 1 ∧ (1/4 : ℚ) / 1 ≤ 1/2) ∧
    (surgeQualifies 2 ⟨0, 0, 3, 1/4, 1, 5⟩ = false ∧
      selloffQualifies 2 ⟨0, 0, 3, 1/4, 1, 5⟩ = false) :=
  ⟨(surge_selloff_classification 2 ⟨0, 1, 3, 1/4, 1, 5⟩).1 (by norm_num),
   (surge_selloff_classification (1/2) ⟨0, 1, 3, 1/4, 1, 5⟩).2.1 (by norm_num),
   (surge_selloff_classification 2 ⟨0, 0, 3, 1/4, 1, 5⟩).2.2 (by norm_num)⟩

/-- Claim C7: whenever `tokens_to_sell = supply * ph_percentage ≤ 0`, both
modelers return an empty schedule and no error. -/
theorem empty_schedule_on_nonpositive_tokens (fuel : ℕ)
    (price supply ph_percentage final_price q_pct step_pct : ℚ)
    (h : supply * ph_percentage ≤ 0) :
    save_buyback_model fuel price supply ph_percentage final_price q_pct step_pct
        = ModelResult.ok [] ∧
    save_liquidation_model fuel price supply ph_percentage final_price q_pct step_pct
        = ModelResult.ok [] := by
  constructor <;> simp [save_buyback_model, save_liquidation_model, h]

/-- Claim C7 witness: a concrete run with negative `ph_percentage`. -/
theorem empty_schedule_on_nonpositive_tokens_witness :
    (1 : ℚ) * (-1) ≤ 0 ∧
      (save_buyback_model 3 1 1 (-1) 2 0 5 = ModelResult.ok [] ∧
       save_liquidation_model 3 1 1 (-1) 2 0 5 = ModelResult.ok []) :=
  ⟨by norm_num, empty_schedule_on_nonpositive_tokens 3 1 1 (-1) 2 0 5 (by norm_num)⟩

/-- Claim C9: with `tokens_to_sell = 1 > 0`, `price = 1 > 0`,
`step_pct = 5 > 0` and `final_price = 0.95` below the price, the buyback
modeler's analytic step count is zero and the per-step token division raises
`ZeroDivisionError`; the liquidation modeler's clamped step count is always at
least 1, and at the same input it does not raise. -/
theorem buyback_step_count_zero_division :
    ((0:ℚ) < 1 * 1 ∧ (0:ℚ) < 1 ∧ (0:ℚ) < 5 ∧ (19/20 : ℚ) < 1 ∧
      buybackSteps 1 (19/20) 5 = 0 ∧
      save_buyback_model 10 1 1 1 (19/20) 0 5 = ModelResult.zeroDivision) ∧
    (∀ price final_price step_pct : ℚ, 1 ≤ liquidationSteps price final_price step_pct) ∧
    save_liquidation_model 10 1 1 1 (19/20) 0 5 ≠ ModelResult.zeroDivision := by
  have hceil : ⌈((19:ℚ)/20 / 1 - 1) / (5/100)⌉ = -1 := by
    rw [Int.ceil_eq_iff]
    norm_num
  have hceil2 : ⌈(1 - (19:ℚ)/20 / 1) / (5/100)⌉ = 1 := by
    rw [Int.ceil_eq_iff]
    norm_num
  have h3 : ⌈((-1):ℚ)⌉ = (-1 : ℤ) := by
    rw [show ((-1):ℚ) = ((-1:ℤ) : ℚ) from by norm_num, Int.ceil_intCast]
  refine ⟨⟨by norm_num, by norm_num, by norm_num, by norm_num, ?_, ?_⟩,
    fun p fp s => le_max_left _ _, ?_⟩
  · rw [buybackSteps, hceil]
    decide
  · norm_num [save_buyback_model, h3]
  · norm_num [save_liquidation_model, hceil2, liquidationLoop]
    exact fun h => ModelResult.noConfusion h

theorem loopResult_ok_inv (o : Option (List SRow)) (rows : List SRow)
    (h : loopResult o = ModelResult.ok rows) : o = some rows := by
  cases o with
  | some r => simpa [loopResult] using h
  | none => simp [loopResult] at h

/-- Claim C5: with `q_pct = 0`, positive token pool, positive price and step,
and the target on the correct side of the price, every row of each schedule
carries the same `tokens_sold` (the pool divided by the analytic step count),
the rows sum exactly to `supply * ph_percentage`, and the loop generates
exactly the analytic number of rows. -/
theorem equal_steps_sum_exact (price supply ph fp_b fp_l step_pct : ℚ)
    (hT : 0 < supply * ph) (hp : 0 < price) (hs : 0 < step_pct)
    (hb : price < fp_b) (hl : fp_l < price) :
    ∃ fuel rows_b rows_l,
      save_buyback_model fuel price supply ph fp_b 0 step_pct = ModelResult.ok rows_b ∧
      save_liquidation_model fuel price supply ph fp_l 0 step_pct = ModelResult.ok rows_l ∧
      (∀ r ∈ rows_b, r.tokens_sold
        = supply * ph / ((buybackSteps price fp_b step_pct : ℤ) : ℚ)) ∧
      (∀ r ∈ rows_l, r.tokens_sold
        = supply * ph / ((liquidationSteps price fp_l step_pct : ℤ) : ℚ)) ∧
      (rows_b.map SRow.tokens_sold).sum = supply * ph ∧
      (rows_l.map SRow.tokens_sold).sum = supply * ph ∧
      rows_b.length = (buybackSteps price fp_b step_pct).toNat ∧
      rows_l.length = (liquidationSteps price fp_l step_pct).toNat := by
  refine ⟨max ((⌈(fp_b / price - 1) / (step_pct / 100)⌉).toNat + 1)
      ((⌈(1 - fp_l / price) / (step_pct / 100)⌉).toNat + 1), ?_⟩
  obtain ⟨rows_b, hok_b, hlen_b, htok_b, hsum_b, hne_b⟩ :=
    save_buyback_q1_run price supply ph fp_b step_pct hT hp hs hb _ (le_max_left _ _)
  obtain ⟨rows_l, hok_l, hlen_l, htok_l, hsum_l, hne_l⟩ :=
    save_liquidation_q1_run price supply ph fp_l step_pct hT hp hs hl _ (le_max_right _ _)
  exact ⟨rows_b, rows_l, hok_b, hok_l, htok_b, htok_l, hsum_b, hsum_l, hlen_b, hlen_l⟩

/-- Claim C5 witness: the schedules at `price = 1`, `supply = 1`,
`ph_percentage = 1`, buyback target 2, liquidation target 1/2, 5% steps. -/
theorem equal_steps_sum_exact_witness :
    (0:ℚ) < 1 * 1 ∧ (0:ℚ) < 1 ∧ (0:ℚ) < 5 ∧ (1:ℚ) < 2 ∧ (1/2:ℚ) < 1 ∧
    ∃ fuel rows_b rows_l,
      save_buyback_model fuel 1 1 1 2 0 5 = ModelResult.ok rows_b ∧
      save_liquidation_model fuel 1 1 1 (1/2) 0 5 = ModelResult.ok rows_l ∧
      (∀ r ∈ rows_b, r.tokens_sold = 1 * 1 / ((buybackSteps 1 2 5 : ℤ) : ℚ)) ∧
      (∀ r ∈ rows_l, r.tokens_sold = 1 * 1 / ((liquidationSteps 1 (1/2) 5 : ℤ) : ℚ)) ∧
      (rows_b.map SRow.tokens_sold).sum = 1 * 1 ∧
      (rows_l.map SRow.tokens_sold).sum = 1 * 1 ∧
      rows_b.length = (buybackSteps 1 2 5).toNat ∧
      rows_l.length = (liquidationSteps 1 (1/2) 5).toNat :=
  ⟨by norm_num, by norm_num, by norm_num, by norm_num, by norm_num,
    equal_steps_sum_exact 1 1 1 2 (1/2) 5 (by norm_num) (by norm_num) (by norm_num)
      (by norm_num) (by norm_num)⟩

/-- Claim C6: whenever either modeler returns a non-empty schedule, its final
row's `price_usd` has crossed `final_price` in the model's direction
(`≥` for buyback, `≤` for liquidation) and no earlier row has — the loop's
only stopping condition is the price crossing, never the exhaustion of the
token pool. -/
theorem schedule_stops_at_first_cross (fuel : ℕ)
    (price supply ph fp q_pct step_pct : ℚ) :
    (∀ rows, save_buyback_model fuel price supply ph fp q_pct step_pct
        = ModelResult.ok rows → rows ≠ [] →
      ∃ last, rows.getLast? = some last ∧ fp ≤ last.price_usd ∧
        ∀ r ∈ rows.dropLast, r.price_usd < fp) ∧
    (∀ rows, save_liquidation_model fuel price supply ph fp q_pct step_pct
        = ModelResult.ok rows → rows ≠ [] →
      ∃ last, rows.getLast? = some last ∧ last.price_usd ≤ fp ∧
        ∀ r ∈ rows.dropLast, fp < r.price_usd) := by
  constructor
  · intro rows h hne
    simp only [save_buyback_model] at h
    split_ifs at h with h1 h2 h3 h4 h5 <;>
      first
        | (cases h; exact absurd rfl hne)
        | (exact ModelResult.noConfusion h)
        | (exact buybackLoop_shape _ _ _ _ _ _ _ _ _ _ _ _ (loopResult_ok_inv _ _ h))
  · intro rows h hne
    simp only [save_liquidation_model] at h
    split_ifs at h with h1 h2 h3 h4 h5 <;>
      first
        | (cases h; exact absurd rfl hne)
        | (exact ModelResult.noConfusion h)
        | (exact liquidationLoop_shape _ _ _ _ _ _ _ _ _ _ _ _ (loopResult_ok_inv _ _ h))

/-- Claim C6 witness: concrete non-empty schedules (price 1, pool 1, buyback
target 2, liquidation target 1/2, 100% steps) whose last rows cross the
target and whose earlier rows do not. -/
theorem schedule_stops_at_first_cross_witness :
    (∃ rows last, save_buyback_model 2 1 1 1 2 0 100 = ModelResult.ok rows ∧ rows ≠ [] ∧
      rows.getLast? = some last ∧ (2:ℚ) ≤ last.price_usd ∧
      ∀ r ∈ rows.dropLast, r.price_usd < 2) ∧
    (∃ rows last, save_liquidation_model 2 1 1 1 (1/2) 0 100 = ModelResult.ok rows ∧
      rows ≠ [] ∧ rows.getLast? = some last ∧ last.price_usd ≤ (1/2:ℚ) ∧
      ∀ r ∈ rows.dropLast, (1/2:ℚ) < r.price_usd) := by
  constructor
  · obtain ⟨rows, hok, hlen, htok, hsum, hne⟩ :=
      save_buyback_q1_run 1 1 1 2 100 (by norm_num) (by norm_num) (by norm_num)
        (by norm_num) 2
        (by
          rw [show ⌈((2:ℚ) / 1 - 1) / (100 / 100)⌉ = 1 from by
            rw [Int.ceil_eq_iff]
            norm_num]
          decide)
    obtain ⟨last, h1, h2, h3⟩ :=
      (schedule_stops_at_first_cross 2 1 1 1 2 0 100).1 rows hok hne
    exact ⟨rows, last, hok, hne, h1, h2, h3⟩
  · obtain ⟨rows, hok, hlen, htok, hsum, hne⟩ :=
      save_liquidation_q1_run 1 1 1 (1/2) 100 (by norm_num) (by norm_num) (by norm_num)
        (by norm_num) 2
        (by
          rw [show ⌈(1 - (1:ℚ)/2 / 1) / (100 / 100)⌉ = 1 from by
            rw [Int.ceil_eq_iff]
            norm_num]
          decide)
    obtain ⟨last, h1, h2, h3⟩ :=
      (schedule_stops_at_first_cross 2 1 1 1 (1/2) 0 100).2 rows hok hne
    exact ⟨rows, last, hok, hne, h1, h2, h3⟩

/-- Claim C10: with positive price, positive step percentage and a positive
token pool, both schedule loops terminate: some finite fuel makes both
modelers return without running out of fuel, for any target price and any
`q_pct`. -/
theorem schedule_loops_terminate (price supply ph fp q_pct step_pct : ℚ)
    (hp : 0 < price) (hs : 0 < step_pct) (hT : 0 < supply * ph) :
    ∃ fuel,
      save_buyback_model fuel price supply ph fp q_pct step_pct
        ≠ ModelResult.outOfFuel ∧
      save_liquidation_model fuel price supply ph fp q_pct step_pct
        ≠ ModelResult.outOfFuel := by
  have hsi : 0 < step_pct / 100 := by positivity
  have hpp : price * (fp / price) = fp := by field_simp
  obtain ⟨nb, hnb⟩ := exists_nat_ge ((fp / price - 1) / (step_pct / 100))
  obtain ⟨nl, hnl⟩ := exists_nat_ge ((1 - fp / price) / (step_pct / 100))
  have hcb : fp ≤ price * (1 + ((max nb nl : ℕ) : ℚ) * (step_pct / 100)) := by
    have h1 : (fp / price - 1) ≤ (nb : ℚ) * (step_pct / 100) := (div_le_iff hsi).mp hnb
    have h2 : (nb : ℚ) ≤ ((max nb nl : ℕ) : ℚ) := by exact_mod_cast le_max_left nb nl
    have h3 : fp / price ≤ 1 + ((max nb nl : ℕ) : ℚ) * (step_pct / 100) := by nlinarith
    have h4 := mul_le_mul_of_nonneg_left h3 hp.le
    linarith
  have hcl : price * (1 - ((max nb nl : ℕ) : ℚ) * (step_pct / 100)) ≤ fp := by
    have h1 : (1 - fp / price) ≤ (nl : ℚ) * (step_pct / 100) := (div_le_iff hsi).mp hnl
    have h2 : (nl : ℚ) ≤ ((max nb nl : ℕ) : ℚ) := by exact_mod_cast le_max_right nb nl
    have h3 : 1 - ((max nb nl : ℕ) : ℚ) * (step_pct / 100) ≤ fp / price := by nlinarith
    have h4 := mul_le_mul_of_nonneg_left h3 hp.le
    linarith
  refine ⟨max nb nl + 1, ?_, ?_⟩
  · have hcomp : ∀ ts : ℚ, (buybackLoop price fp (step_pct / 100) (1 + q_pct / 100)
        supply (max nb nl + 1) 1 1 ts 0 0).isSome :=
      fun ts => buybackLoop_complete price fp (step_pct / 100) (1 + q_pct / 100) supply
        (max nb nl) 1 hcb (max nb nl + 1) (le_refl _) 1 ts 0 0
    simp only [save_buyback_model, if_neg (not_le.mpr hT)]
    by_cases hq : (1 : ℚ) + q_pct / 100 = 1
    · rw [if_pos hq]
      by_cases hst : ⌈(fp / price - 1) / (step_pct / 100)⌉ + 1 = 0
      · rw [if_pos hst]
        exact fun h => ModelResult.noConfusion h
      · rw [if_neg hst]
        obtain ⟨rows, hr⟩ := Option.isSome_iff_exists.mp (hcomp _)
        rw [hr]
        simp [loopResult]
    · rw [if_neg hq]
      by_cases hc4 : (1 : ℚ) + q_pct / 100 = 0 ∧
          ⌈(fp / price - 1) / (step_pct / 100)⌉ + 1 < 0
      · rw [if_pos hc4]
        exact fun h => ModelResult.noConfusion h
      · rw [if_neg hc4]
        by_cases hc5 : 1 - ((1 : ℚ) + q_pct / 100)
            ^ (⌈(fp / price - 1) / (step_pct / 100)⌉ + 1) = 0
        · rw [if_pos hc5]
          exact fun h => ModelResult.noConfusion h
        · rw [if_neg hc5]
          obtain ⟨rows, hr⟩ := Option.isSome_iff_exists.mp (hcomp _)
          rw [hr]
          simp [loopResult]
  · have hcomp : ∀ ts : ℚ, (liquidationLoop price fp (step_pct / 100) (1 + q_pct / 100)
        supply (max nb nl + 1) 1 1 ts 0 0).isSome :=
      fun ts => liquidationLoop_complete price fp (step_pct / 100) (1 + q_pct / 100) supply
        (max nb nl) 1 hcl (max nb nl + 1) (le_refl _) 1 ts 0 0
    simp only [save_liquidation_model, if_neg (not_le.mpr hT)]
    by_cases hq : (1 : ℚ) + q_pct / 100 = 1
    · rw [if_pos hq]
      by_cases hst : max 1 (⌈(1 - fp / price) / (step_pct / 100)⌉ + 1) = 0
      · rw [if_pos hst]
        exact fun h => ModelResult.noConfusion h
      · rw [if_neg hst]
        obtain ⟨rows, hr⟩ := Option.isSome_iff_exists.mp (hcomp _)
        rw [hr]
        simp [loopResult]
    · rw [if_neg hq]
      by_cases hc4 : (1 : ℚ) + q_pct / 100 = 0 ∧
          max 1 (⌈(1 - fp / price) / (step_pct / 100)⌉ + 1) < 0
      · rw [if_pos hc4]
        exact fun h => ModelResult.noConfusion h
      · rw [if_neg hc4]
        by_cases hc5 : 1 - ((1 : ℚ) + q_pct / 100)
            ^ (max 1 (⌈(1 - fp / price) / (step_pct / 100)⌉ + 1)) = 0
        · rw [if_pos hc5]
          exact fun h => ModelResult.noConfusion h
        · rw [if_neg hc5]
          obtain ⟨rows, hr⟩ := Option.isSome_iff_exists.mp (hcomp _)
          rw [hr]
          simp [loopResult]

/-- Claim C10 witness: termination at a concrete input. -/
theorem schedule_loops_terminate_witness :
    (0:ℚ) < 1 ∧ (0:ℚ) < 5 ∧ (0:ℚ) < 1 * 1 ∧
    ∃ fuel,
      save_buyback_model fuel 1 1 1 2 3 5 ≠ ModelResult.outOfFuel ∧
      save_liquidation_model fuel 1 1 1 2 3 5 ≠ ModelResult.outOfFuel :=
  ⟨by norm_num, by norm_num, by norm_num,
    schedule_loops_terminate 1 1 1 2 3 5 (by norm_num) (by norm_num) (by norm_num)⟩

/-- Claim C4: with positive supply, each qualifying day's `ph_volume` is the
day's volume minus the mean of the neighbour volumes at indices
`i-2, i-1, i+1, i+2` inside the series, `ph_percentage` is `ph_volume`
divided by the supply, and both snippet writers return the arithmetic mean of
all events' `ph_percentage`, or `0` when no day qualifies. -/
theorem event_metrics (ohlcv : List Candle) (supply multiplier : ℚ) (h : 0 < supply) :
    (∀ i c, ohlcv.get? i = some c →
        phVolume ohlcv i c
          = c.volume - (neighborIdxVols ohlcv i).sum / ((neighborIdxVols ohlcv i).length : ℚ) ∧
        phPercentage supply (phVolume ohlcv i c) = phVolume ohlcv i c / supply) ∧
    surgeAverages ohlcv supply multiplier
      = (ohlcv.enum.filter (fun p => surgeQualifies multiplier p.2)).map
          (fun p => phVolume ohlcv p.1 p.2 / supply) ∧
    selloffAverages ohlcv supply multiplier
      = (ohlcv.enum.filter (fun p => selloffQualifies multiplier p.2)).map
          (fun p => phVolume ohlcv p.1 p.2 / supply) ∧
    save_surge_snippets ohlcv supply multiplier
      = (if surgeAverages ohlcv supply multiplier = [] then 0
         else (surgeAverages ohlcv supply multiplier).sum
              / ((surgeAverages ohlcv supply multiplier).length : ℚ)) ∧
    save_selloff_snippets ohlcv supply multiplier
      = (if selloffAverages ohlcv supply multiplier = [] then 0
         else (selloffAverages ohlcv supply multiplier).sum
              / ((selloffAverages ohlcv supply multiplier).length : ℚ)) := by
  have hs : supply ≠ 0 := ne_of_gt h
  have hph : ∀ i c, phVolume ohlcv i c
      = c.volume - (neighborIdxVols ohlcv i).sum / ((neighborIdxVols ohlcv i).length : ℚ) := by
    intro i c
    rw [phVolume, ← surroundingVolumes_eq_neighborIdxVols]
    rcases eq_or_ne (surroundingVolumes ohlcv i) [] with he | he
    · rw [he]
      norm_num
    · rw [if_neg he]
  have hpp : ∀ v : ℚ, phPercentage supply v = v / supply := fun v => if_neg hs
  refine ⟨fun i c _ => ⟨hph i c, hpp _⟩, ?_, ?_, rfl, rfl⟩
  · rw [surgeAverages, filterMap_ite_eq_filter_map]
    exact List.map_congr_left (fun p _ => hpp _)
  · rw [selloffAverages, filterMap_ite_eq_filter_map]
    exact List.map_congr_left (fun p _ => hpp _)

/-- Claim C4 witness: the metrics evaluated on the repository's own five-day
surge example at the surge index 2 with supply 1000. -/
theorem event_metrics_witness :
    phVolume eventWitnessSeries 2 ⟨2, 1, 5/2, 9/10, 2, 100⟩
      = (⟨2, 1, 5/2, 9/10, 2, 100⟩ : Candle).volume
        - (neighborIdxVols eventWitnessSeries 2).sum
          / ((neighborIdxVols eventWitnessSeries 2).length : ℚ) ∧
    phPercentage 1000 (phVolume eventWitnessSeries 2 ⟨2, 1, 5/2, 9/10, 2, 100⟩)
      = phVolume eventWitnessSeries 2 ⟨2, 1, 5/2, 9/10, 2, 100⟩ / 1000 :=
  (event_metrics eventWitnessSeries 1000 2 (by norm_num)).1 2
    ⟨2, 1, 5/2, 9/10, 2, 100⟩ rfl

end PHModel
